import Mathlib

/-!
Verification of the run-preserving translation core of the
`powerpoint-translator` repository.

Python strings are embedded as `List Char` (`PyStr`).  Python's
whitespace-sensitive primitives (`strip`, `lstrip`, `rstrip`, `isspace`,
`isupper`, `isdigit`) are modelled on the ASCII fragment of Unicode:
whitespace is the six ASCII whitespace characters, cased characters are
the ASCII letters, digits are the ASCII digits.  All of the repository's
inputs exercised by the specification lie in this fragment.
-/

set_option autoImplicit false

namespace PPTX

abbrev PyStr := List Char

/-- Model of Python's character-level whitespace test on the ASCII fragment:
space, tab, newline, carriage return, vertical tab and form feed. -/
def pyIsSpaceChar (c : Char) : Bool :=
  c = ' ' || c = '\t' || c = '\n' || c = '\r' || c = '\x0b' || c = '\x0c'

/-- Model of Python's `str.isspace()`: non-empty and every character is whitespace. -/
def pyIsSpace (s : PyStr) : Bool :=
  !s.isEmpty && s.all pyIsSpaceChar

/-- Model of Python's `str.lstrip()`. -/
def pyLstrip (s : PyStr) : PyStr :=
  s.dropWhile pyIsSpaceChar

/-- Model of Python's `str.rstrip()`. -/
def pyRstrip (s : PyStr) : PyStr :=
  (s.reverse.dropWhile pyIsSpaceChar).reverse

/-- Model of Python's `str.strip()`. -/
def pyStrip (s : PyStr) : PyStr :=
  pyRstrip (pyLstrip s)

/-- Leading whitespace of a run's text, as the source computes it:
`original_text[:len(original_text) - len(original_text.lstrip())]`. -/
def leadingWs (s : PyStr) : PyStr :=
  s.take (s.length - (pyLstrip s).length)

/-- Trailing whitespace of a run's text, as the source computes it:
`original_text[len(original_text.rstrip()):]`. -/
def trailingWs (s : PyStr) : PyStr :=
  s.drop (pyRstrip s).length

/-- Model of Python's `str.isupper()` on the ASCII fragment: at least one
cased character, and no cased character is lowercase. -/
def pyIsUpper (s : PyStr) : Bool :=
  s.any (fun c => c.isAlpha) && s.all (fun c => !c.isAlpha || c.isUpper)

/-- Model of Python's `str.isdigit()` on the ASCII fragment. -/
def pyIsDigit (s : PyStr) : Bool :=
  !s.isEmpty && s.all Char.isDigit

/-- Embedding of `EnhancedShapeProcessor._should_translate_text`
(src/processors/enhanced_shape_processor.py, lines 272-305). -/
def should_translate_text_ppt (text : PyStr) : Bool :=
  let clean_text := pyStrip text
  if clean_text.isEmpty then false
  else if pyIsSpace text then false
  else if clean_text.length = 1 then false
  else if 2 ≤ clean_text.length && pyIsUpper clean_text && !pyIsDigit clean_text then
    -- "Allow translation if it contains lowercase letters"; dead for an
    -- all-uppercase string, kept to mirror the source.
    if clean_text.any Char.isLower then true else false
  else if pyIsDigit clean_text then false
  else true

/-- An ASCII lowercase letter is not an ASCII uppercase letter. -/
theorem isUpper_eq_false_of_isLower (c : Char) (h : c.isLower = true) :
    c.isUpper = false := by
  simp only [Char.isLower, Char.isUpper, Bool.and_eq_true, decide_eq_true_eq, ge_iff_le] at *
  rw [Bool.eq_false_iff]
  intro h2
  simp only [Bool.and_eq_true, decide_eq_true_eq, ge_iff_le] at h2
  have h1 : (97 : UInt32).toNat ≤ c.val.toNat := by exact_mod_cast h.1
  have h3 : c.val.toNat ≤ (90 : UInt32).toNat := by exact_mod_cast h2.2
  simp [UInt32.toNat] at h1 h3
  omega

/-- The fixed set of non-translatable glyphs rejected by the Word predicate:
`['&', '...', '•', '→', '←', '↑', '↓']`. -/
def nonTranslatableGlyphs : List PyStr :=
  [['&'], ['.', '.', '.'], ['•'], ['→'], ['←'], ['↑'], ['↓']]

/-- Embedding of `WordFormattingManager._should_translate_text`
(src/word_formatting/manager.py, lines 307-327). -/
def should_translate_text_word (text : PyStr) : Bool :=
  let clean_text := pyStrip text
  if clean_text.isEmpty || pyIsSpace text || clean_text.length = 1 then false
  else if 2 ≤ clean_text.length && pyIsUpper clean_text && !pyIsDigit clean_text then false
  else if pyIsDigit clean_text then false
  else if nonTranslatableGlyphs.contains clean_text then false
  else true

section ListHelpers

variable {α : Type} (p : α → Bool)

/-- `takeWhile` over an append whose left part is all-`p`. -/
theorem takeWhile_append_all {xs : List α} (ys : List α) (h : xs.all p) :
    (xs ++ ys).takeWhile p = xs ++ ys.takeWhile p := by
  induction xs with
  | nil => simp
  | cons a as ih =>
    simp only [List.all_cons, Bool.and_eq_true] at h
    simp [List.takeWhile_cons, h.1, ih h.2]

/-- `takeWhile` over an append that stops inside the left part. -/
theorem takeWhile_append_stop {xs : List α} (ys : List α) (h : xs.takeWhile p ≠ xs) :
    (xs ++ ys).takeWhile p = xs.takeWhile p := by
  induction xs with
  | nil => simp at h
  | cons a as ih =>
    by_cases hp : p a
    · simp only [List.takeWhile_cons, hp, if_true] at h ⊢
      simp only [List.cons_append, List.takeWhile_cons, hp, if_true]
      exact congrArg (a :: ·) (ih (fun he => h (congrArg (a :: ·) he)))
    · simp [List.takeWhile_cons, hp]

/-- `dropWhile` over an append that stops inside the left part. -/
theorem dropWhile_append_stop {xs : List α} (ys : List α) (h : xs.dropWhile p ≠ []) :
    (xs ++ ys).dropWhile p = xs.dropWhile p ++ ys := by
  induction xs with
  | nil => simp at h
  | cons a as ih =>
    by_cases hp : p a
    · simp only [List.cons_append, List.dropWhile_cons, hp, if_true] at h ⊢
      exact ih h
    · simp [List.dropWhile_cons, hp]

/-- Dropping the `takeWhile` yields the `dropWhile`. -/
theorem drop_length_takeWhile (l : List α) :
    l.drop (l.takeWhile p).length = l.dropWhile p := by
  nth_rewrite 2 [← List.takeWhile_append_dropWhile (p := p) (l := l)]
  exact List.drop_left _ _

/-- Lengths of `takeWhile` and `dropWhile` add up. -/
theorem length_takeWhile_add (l : List α) :
    (l.takeWhile p).length + (l.dropWhile p).length = l.length := by
  conv_rhs => rw [← List.takeWhile_append_dropWhile (p := p) (l := l)]
  exact (List.length_append _ _).symm

end ListHelpers

/-- The leading whitespace computed by the source is the maximal whitespace
prefix of the string. -/
theorem leadingWs_eq_takeWhile (s : PyStr) :
    leadingWs s = s.takeWhile pyIsSpaceChar := by
  unfold leadingWs pyLstrip
  have h := length_takeWhile_add pyIsSpaceChar s
  have hlen : s.length - (s.dropWhile pyIsSpaceChar).length =
      (s.takeWhile pyIsSpaceChar).length := by omega
  rw [hlen]
  nth_rewrite 2 [← List.takeWhile_append_dropWhile (p := pyIsSpaceChar) (l := s)]
  exact List.take_left _ _

/-- The string splits as `rstrip` plus the trailing whitespace the source
computes. -/
theorem rstrip_append_trailingWs (s : PyStr) :
    s = pyRstrip s ++ trailingWs s ∧
      trailingWs s = (s.reverse.takeWhile pyIsSpaceChar).reverse := by
  have hsplit : pyRstrip s ++ (s.reverse.takeWhile pyIsSpaceChar).reverse = s := by
    unfold pyRstrip
    rw [← List.reverse_append, List.takeWhile_append_dropWhile, List.reverse_reverse]
  have htw : trailingWs s = (s.reverse.takeWhile pyIsSpaceChar).reverse := by
    unfold trailingWs
    nth_rewrite 2 [← hsplit]
    exact List.drop_left _ _
  exact ⟨by rw [htw, hsplit], htw⟩

/-- Decomposition of a string with non-blank core into the leading
whitespace, the stripped core, and the trailing whitespace, exactly as the
substitution engine reassembles it. -/
theorem leading_strip_trailing (s : PyStr) (h : pyStrip s ≠ []) :
    leadingWs s ++ pyStrip s ++ trailingWs s = s := by
  have hd : s.takeWhile pyIsSpaceChar ++ pyLstrip s = s :=
    List.takeWhile_append_dropWhile pyIsSpaceChar s
  have hdnw : (pyLstrip s).reverse.dropWhile pyIsSpaceChar ≠ [] := by
    intro hnil
    apply h
    unfold pyStrip pyRstrip
    rw [hnil, List.reverse_nil]
  have hstop : (pyLstrip s).reverse.takeWhile pyIsSpaceChar ≠ (pyLstrip s).reverse := by
    intro he
    apply hdnw
    rw [← drop_length_takeWhile pyIsSpaceChar, he, List.drop_length]
  have htw : trailingWs s = ((pyLstrip s).reverse.takeWhile pyIsSpaceChar).reverse := by
    rw [(rstrip_append_trailingWs s).2]
    have hrev : s.reverse = (pyLstrip s).reverse ++ (s.takeWhile pyIsSpaceChar).reverse := by
      conv_lhs => rw [← hd]
      rw [List.reverse_append]
    rw [hrev, takeWhile_append_stop pyIsSpaceChar _ hstop]
  have hdec := rstrip_append_trailingWs (pyLstrip s)
  rw [leadingWs_eq_takeWhile, htw]
  unfold pyStrip
  rw [List.append_assoc, ← hdec.2, ← hdec.1]
  exact hd

/-- A text run: the smallest styled text unit.  The text is the only field
the substitution engine ever writes; every other attribute of the host run
object is abstracted into `fmt`, on which the engine never acts. -/
structure PRun (F : Type) where
  text : PyStr
  fmt : F
deriving DecidableEq, Repr

/-- Whether the loop body of `_translate_paragraph_runs` reaches the
translation call for a run: `if run.text and run.text.strip():` followed by
`if not self._should_translate_text(original_text): continue`. -/
def runAccepted (pred : PyStr → Bool) (text : PyStr) : Bool :=
  !text.isEmpty && !(pyStrip text).isEmpty && pred text

/-- One iteration of the loop of `_translate_paragraph_runs`
(src/processors/enhanced_shape_processor.py lines 113-136 and
src/word_processors/enhanced_document_processor.py lines 49-72, which are
textually identical up to the predicate used): returns the updated run and
the list of arguments passed to `translate_func` during the iteration. -/
def processRun {F : Type} (pred : PyStr → Bool) (f : PyStr → PyStr) (r : PRun F) :
    PRun F × List PyStr :=
  if !r.text.isEmpty && !(pyStrip r.text).isEmpty then
    if pred r.text then
      let leading_spaces := leadingWs r.text
      let trailing_spaces := trailingWs r.text
      let core_text := pyStrip r.text
      ({ r with text := leading_spaces ++ f core_text ++ trailing_spaces }, [core_text])
    else (r, [])
  else (r, [])

/-- Embedding of `_translate_paragraph_runs`: the run list after the loop,
paired with the concatenated log of calls made to `translate_func`. -/
def translate_paragraph_runs {F : Type} (pred : PyStr → Bool) (f : PyStr → PyStr)
    (runs : List (PRun F)) : List (PRun F) × List PyStr :=
  (runs.map fun r => (processRun pred f r).1,
   (runs.map fun r => (processRun pred f r).2).flatten)

/-- One loop iteration when the callback can raise (`Except.error` models a
Python exception): the source has no `try` around `translate_func`, so an
exception aborts the iteration. -/
def processRunExc {E F : Type} (pred : PyStr → Bool) (f : PyStr → Except E PyStr)
    (r : PRun F) : Except E (PRun F) :=
  if !r.text.isEmpty && !(pyStrip r.text).isEmpty then
    if pred r.text then
      match f (pyStrip r.text) with
      | .ok translated_core =>
          .ok { r with text := leadingWs r.text ++ translated_core ++ trailingWs r.text }
      | .error e => .error e
    else .ok r
  else .ok r

/-- Embedding of `_translate_paragraph_runs` with a callback that can raise:
the loop stops at the first exception, which propagates to the caller. -/
def translate_paragraph_runs_exc {E F : Type} (pred : PyStr → Bool)
    (f : PyStr → Except E PyStr) : List (PRun F) → Except E (List (PRun F))
  | [] => .ok []
  | r :: rs =>
    match processRunExc pred f r with
    | .error e => .error e
    | .ok r' =>
      match translate_paragraph_runs_exc pred f rs with
      | .error e => .error e
      | .ok rs' => .ok (r' :: rs')

/-- The text of a paragraph is the concatenation of its runs' texts. -/
def paragraphText {F : Type} (runs : List (PRun F)) : PyStr :=
  (runs.map PRun.text).flatten

/-- Embedding of `EnhancedDocumentProcessor.process_paragraph`
(src/word_processors/enhanced_document_processor.py lines 18-36): skips a
paragraph whose text strips to empty, otherwise runs
`_translate_paragraph_runs`; its `except` clause logs the error and
re-raises, so a callback exception still propagates to the caller. -/
def process_paragraph_exc {E F : Type} (pred : PyStr → Bool)
    (f : PyStr → Except E PyStr) (runs : List (PRun F)) : Except E (List (PRun F)) :=
  if (pyStrip (paragraphText runs)).isEmpty then .ok runs
  else translate_paragraph_runs_exc pred f runs

/-- Embedding of `PowerPointTranslator.translate_text`
(src/translate_powerpoint.py lines 126-160), the default callback: empty or
whitespace-only text is returned as is; the OpenAI call (abstracted as
`api`) is guarded by `try/except` that logs the error and returns the input
text unchanged. -/
def translate_text {E : Type} (api : PyStr → Except E PyStr) (text : PyStr) : PyStr :=
  if text.isEmpty || (pyStrip text).isEmpty then text
  else
    match api text with
    | .ok translated => translated
    | .error _ => text

/-- In an all-uppercase string no character is lowercase (the branch
`if any(c.islower() for c in clean_text)` of the PowerPoint predicate is
dead code). -/
theorem any_isLower_eq_false_of_pyIsUpper (s : PyStr) (h : pyIsUpper s = true) :
    s.any Char.isLower = false := by
  rw [Bool.eq_false_iff]
  intro hany
  rw [List.any_eq_true] at hany
  obtain ⟨c, hc, hlow⟩ := hany
  unfold pyIsUpper at h
  rw [Bool.and_eq_true] at h
  have hall := h.2
  rw [List.all_eq_true] at hall
  have hor := hall c hc
  rw [Bool.or_eq_true] at hor
  have halpha : c.isAlpha = true := by
    simp [Char.isAlpha, hlow]
  cases hor with
  | inl h1 => rw [halpha] at h1; simp at h1
  | inr h2 =>
    have hfalse := isUpper_eq_false_of_isLower c hlow
    rw [hfalse] at h2
    simp at h2

/-- The run is accepted by the loop body: non-empty text, non-blank core,
and the should-translate predicate holds. -/
theorem processRun_fst_accepted {F : Type} (pred : PyStr → Bool) (f : PyStr → PyStr)
    (r : PRun F) (h : runAccepted pred r.text = true) :
    (processRun pred f r).1 =
      { r with text := leadingWs r.text ++ f (pyStrip r.text) ++ trailingWs r.text } := by
  unfold runAccepted at h
  rw [Bool.and_eq_true, Bool.and_eq_true] at h
  simp [processRun, h.1.1, h.1.2, h.2]

/-- A skipped run is returned unchanged. -/
theorem processRun_fst_skipped {F : Type} (pred : PyStr → Bool) (f : PyStr → PyStr)
    (r : PRun F) (h : runAccepted pred r.text = false) :
    (processRun pred f r).1 = r := by
  unfold runAccepted at h
  unfold processRun
  by_cases h1 : (!r.text.isEmpty && !(pyStrip r.text).isEmpty) = true
  · rw [if_pos h1]
    rw [h1] at h
    simp only [Bool.true_and] at h
    rw [if_neg (by simp [h])]
  · rw [if_neg h1]

/-- The loop body calls the callback exactly on the stripped core of an
accepted run, and on nothing else. -/
theorem processRun_snd_eq {F : Type} (pred : PyStr → Bool) (f : PyStr → PyStr)
    (r : PRun F) :
    (processRun pred f r).2 =
      if runAccepted pred r.text = true then [pyStrip r.text] else [] := by
  unfold processRun runAccepted
  by_cases h1 : (!r.text.isEmpty && !(pyStrip r.text).isEmpty) = true
  · by_cases h2 : pred r.text <;> simp [h1, h2]
  · have h1f : (!r.text.isEmpty && !(pyStrip r.text).isEmpty) = false := by simpa using h1
    simp [h1f]

/-- The loop body never changes a run's formatting. -/
theorem processRun_fst_fmt {F : Type} (pred : PyStr → Bool) (f : PyStr → PyStr)
    (r : PRun F) : ((processRun pred f r).1).fmt = r.fmt := by
  unfold processRun
  split
  · split <;> rfl
  · rfl

/-- The callback is invoked exactly on the stripped cores of the accepted
runs, in order. -/
theorem translate_paragraph_runs_calls {F : Type} (pred : PyStr → Bool)
    (f : PyStr → PyStr) (rs : List (PRun F)) :
    (translate_paragraph_runs pred f rs).2 =
      (rs.filter fun r => runAccepted pred r.text).map fun r => pyStrip r.text := by
  unfold translate_paragraph_runs
  induction rs with
  | nil => rfl
  | cons r rest ih =>
    dsimp only at ih ⊢
    simp only [List.map_cons, List.flatten_cons, List.filter_cons]
    rw [processRun_snd_eq]
    by_cases hr : runAccepted pred r.text = true
    · simp [hr, ih]
    · simp [hr, ih]

/-- Claim C1: every run whose text is non-empty, non-whitespace and accepted
by the should-translate predicate gets new text `leading ++ f(core) ++
trailing`; every other run is unchanged; and the translation callback is
invoked exactly on the stripped cores of the accepted runs, in order. -/
theorem translate_paragraph_runs_per_run {F : Type} (pred : PyStr → Bool)
    (f : PyStr → PyStr) (rs : List (PRun F)) (i : Nat) (h : i < rs.length) :
    (runAccepted pred (rs.get ⟨i, h⟩).text = true →
      (translate_paragraph_runs pred f rs).1.get? i =
        some { rs.get ⟨i, h⟩ with
               text := leadingWs (rs.get ⟨i, h⟩).text ++
                 f (pyStrip (rs.get ⟨i, h⟩).text) ++ trailingWs (rs.get ⟨i, h⟩).text }) ∧
    (runAccepted pred (rs.get ⟨i, h⟩).text = false →
      (translate_paragraph_runs pred f rs).1.get? i = some (rs.get ⟨i, h⟩)) ∧
    (translate_paragraph_runs pred f rs).2 =
      (rs.filter fun r => runAccepted pred r.text).map fun r => pyStrip r.text := by
  have hget : (translate_paragraph_runs pred f rs).1.get? i =
      some ((processRun pred f (rs.get ⟨i, h⟩)).1) := by
    unfold translate_paragraph_runs
    dsimp only
    rw [List.get?_map, List.get?_eq_get h]
    rfl
  refine ⟨fun hacc => ?_, fun hacc => ?_, ?_⟩
  · rw [hget, processRun_fst_accepted pred f _ hacc]
  · rw [hget, processRun_fst_skipped pred f _ hacc]
  · exact translate_paragraph_runs_calls pred f rs

/-- Concrete callback for the whitespace-preservation example of the spec:
maps "hello" to "world" and is the identity elsewhere. -/
def exampleHelloCallback : PyStr → PyStr :=
  fun s => if s = "hello".toList then "world".toList else s

/-- Witness for claim C1 at the spec's concrete example: a run with text
`"  hello  "` under a callback mapping "hello" to "world" ends with text
exactly `"  world  "`. -/
theorem translate_paragraph_runs_per_run_witness :
    runAccepted should_translate_text_ppt ("  hello  ".toList) = true ∧
    (translate_paragraph_runs should_translate_text_ppt exampleHelloCallback
        [⟨"  hello  ".toList, (0 : Nat)⟩]).1.get? 0 =
      some ⟨"  world  ".toList, (0 : Nat)⟩ := by
  refine ⟨by decide, ?_⟩
  have h := (translate_paragraph_runs_per_run should_translate_text_ppt
    exampleHelloCallback [⟨"  hello  ".toList, (0 : Nat)⟩] 0 (by decide)).1 (by decide)
  rw [h]
  decide

/-- Claim C2: the run-preserving substitution strategy never changes the
number or order of runs, and leaves every formatting attribute of every run
unchanged (only the text field is ever reassigned). -/
theorem translate_paragraph_runs_preserves_structure {F : Type} (pred : PyStr → Bool)
    (f : PyStr → PyStr) (rs : List (PRun F)) :
    ((translate_paragraph_runs pred f rs).1).length = rs.length ∧
    ((translate_paragraph_runs pred f rs).1).map PRun.fmt = rs.map PRun.fmt := by
  constructor
  · unfold translate_paragraph_runs
    exact List.length_map _ _
  · unfold translate_paragraph_runs
    simp only [List.map_map]
    exact List.map_congr_left fun r _ => processRun_fst_fmt pred f r

/-- Claim C3: the should-translate predicate (in both its PowerPoint and its
Word incarnation) rejects "NASA", "NASA 2024", "42", "a" and "", and accepts
"Hello World". -/
theorem should_translate_text_examples :
    should_translate_text_ppt ("NASA".toList) = false ∧
    should_translate_text_ppt ("NASA 2024".toList) = false ∧
    should_translate_text_ppt ("Hello World".toList) = true ∧
    should_translate_text_ppt ("42".toList) = false ∧
    should_translate_text_ppt ("a".toList) = false ∧
    should_translate_text_ppt ("".toList) = false ∧
    should_translate_text_word ("NASA".toList) = false ∧
    should_translate_text_word ("NASA 2024".toList) = false ∧
    should_translate_text_word ("Hello World".toList) = true ∧
    should_translate_text_word ("42".toList) = false ∧
    should_translate_text_word ("a".toList) = false ∧
    should_translate_text_word ("".toList) = false := by
  decide

/-- Claim C6 (amended): the Word predicate equals the PowerPoint predicate
conjoined with rejection of the fixed glyph list; the two predicates differ
exactly on inputs whose stripped text is "..." (the only glyph not already
rejected as a single character). -/
theorem should_translate_word_eq_ppt_and_glyphs (text : PyStr) :
    should_translate_text_word text =
      (should_translate_text_ppt text &&
        !(nonTranslatableGlyphs.contains (pyStrip text))) := by
  unfold should_translate_text_word should_translate_text_ppt
  by_cases h1 : (pyStrip text).isEmpty
  · simp [h1]
  by_cases h2 : pyIsSpace text = true
  · simp [h1, h2]
  by_cases h3 : (pyStrip text).length = 1
  · simp [h1, h2, h3]
  by_cases hB : pyIsUpper (pyStrip text) = true
  · have hdead := any_isLower_eq_false_of_pyIsUpper _ hB
    by_cases hA : 2 ≤ (pyStrip text).length <;>
      by_cases hD : pyIsDigit (pyStrip text) = true <;>
      by_cases h6 : nonTranslatableGlyphs.contains (pyStrip text) = true <;>
      simp [h1, h2, h3, hA, hB, hD, h6, hdead]
  · by_cases hA : 2 ≤ (pyStrip text).length <;>
      by_cases hD : pyIsDigit (pyStrip text) = true <;>
      by_cases h6 : nonTranslatableGlyphs.contains (pyStrip text) = true <;>
      simp [h1, h2, h3, hA, hB, hD, h6]

/-- Counterexample for claim C6 as stated: the predicates are not the same
function — on "..." the PowerPoint predicate accepts while the Word
predicate rejects (the PowerPoint version has no glyph list). -/
theorem should_translate_word_ppt_differ_on_ellipsis :
    should_translate_text_ppt ("...".toList) = true ∧
    should_translate_text_word ("...".toList) = false := by
  decide

/-- The first element surviving `dropWhile` falsifies the predicate. -/
theorem dropWhile_cons_head {α : Type} (p : α → Bool) (l : List α) (c : α) (d : List α)
    (h : l.dropWhile p = c :: d) : p c = false := by
  induction l with
  | nil => simp at h
  | cons a as ih =>
    rw [List.dropWhile_cons] at h
    by_cases hp : p a = true
    · rw [if_pos hp] at h
      exact ih h
    · rw [if_neg hp] at h
      cases h
      simpa using hp

/-- A string strips to empty exactly when it is all whitespace. -/
theorem pyStrip_eq_nil_iff (t : PyStr) :
    pyStrip t = [] ↔ t.all pyIsSpaceChar = true := by
  constructor
  · intro h
    have hl : pyLstrip t = [] := by
      cases hx : pyLstrip t with
      | nil => rfl
      | cons c d =>
        exfalso
        have hcd : pyRstrip (c :: d) = [] := by
          unfold pyStrip at h
          rw [hx] at h
          exact h
        unfold pyRstrip at hcd
        rw [List.reverse_eq_nil_iff] at hcd
        have hcw : pyIsSpaceChar c = true :=
          List.dropWhile_eq_nil_iff.1 hcd c (by simp)
        have hcf : pyIsSpaceChar c = false :=
          dropWhile_cons_head pyIsSpaceChar t c d hx
        rw [hcw] at hcf
        exact Bool.noConfusion hcf
    rw [List.all_eq_true]
    intro c hc
    exact List.dropWhile_eq_nil_iff.1 hl c hc
  · intro h
    unfold pyStrip pyLstrip
    rw [List.dropWhile_eq_nil_iff.2 (by rw [List.all_eq_true] at h; exact h)]
    rfl

/-- A non-empty stripped string is not all-whitespace (its head character is
the first non-whitespace character of the original string). -/
theorem pyStrip_all_ws_eq_false (t : PyStr) (h : pyStrip t ≠ []) :
    (pyStrip t).all pyIsSpaceChar = false := by
  have hl : pyLstrip t ≠ [] := by
    intro hnil
    apply h
    unfold pyStrip
    rw [hnil]
    rfl
  obtain ⟨c, d, hd⟩ : ∃ c d, pyLstrip t = c :: d := by
    cases hx : pyLstrip t with
    | nil => exact absurd hx hl
    | cons c d => exact ⟨c, d, rfl⟩
  have hcf : pyIsSpaceChar c = false := dropWhile_cons_head pyIsSpaceChar t c d hd
  obtain ⟨s', hs⟩ : ∃ s', pyStrip t = c :: s' := by
    have hdec := (rstrip_append_trailingWs (pyLstrip t)).1
    cases hy : pyRstrip (pyLstrip t) with
    | nil =>
      exfalso
      apply h
      unfold pyStrip
      rw [hy]
    | cons y ys =>
      refine ⟨ys, ?_⟩
      have hpre : pyLstrip t = y :: (ys ++ trailingWs (pyLstrip t)) := by
        rw [hy] at hdec
        simpa using hdec
      rw [hd] at hpre
      injection hpre with hcy hrest
      unfold pyStrip
      rw [hy, hcy]
  rw [hs]
  simp [hcf]

/-- In the `Except`-aware engine an always-succeeding callback gives the
pure engine's result. -/
theorem processRunExc_ok {E F : Type} (pred : PyStr → Bool) (g : PyStr → PyStr)
    (r : PRun F) :
    processRunExc (E := E) pred (fun s => Except.ok (g s)) r =
      Except.ok ((processRun pred g r).1) := by
  unfold processRunExc processRun
  by_cases h1 : (!r.text.isEmpty && !(pyStrip r.text).isEmpty) = true
  · by_cases h2 : pred r.text = true <;> simp [h1, h2]
  · simp [h1]

/-- The loop with an always-succeeding callback never raises and computes
the pure engine's result. -/
theorem translate_paragraph_runs_exc_ok {E F : Type} (pred : PyStr → Bool)
    (g : PyStr → PyStr) (rs : List (PRun F)) :
    translate_paragraph_runs_exc (E := E) pred (fun s => Except.ok (g s)) rs =
      Except.ok ((translate_paragraph_runs pred g rs).1) := by
  induction rs with
  | nil => rfl
  | cons r rest ih =>
    unfold translate_paragraph_runs_exc
    rw [processRunExc_ok, ih]
    rfl

/-- An all-whitespace paragraph is left unchanged by the loop. -/
theorem translate_paragraph_runs_all_ws {F : Type} (pred : PyStr → Bool)
    (g : PyStr → PyStr) (rs : List (PRun F))
    (h : (pyStrip (paragraphText rs)).isEmpty = true) :
    (translate_paragraph_runs pred g rs).1 = rs := by
  have hall : (paragraphText rs).all pyIsSpaceChar = true :=
    (pyStrip_eq_nil_iff _).1 (by rwa [← List.isEmpty_iff])
  have hskip : ∀ r ∈ rs, (processRun pred g r).1 = r := by
    intro r hr
    apply processRun_fst_skipped
    have htext : r.text.all pyIsSpaceChar = true := by
      rw [List.all_eq_true] at hall ⊢
      intro c hc
      apply hall
      unfold paragraphText
      rw [List.mem_flatten]
      exact ⟨r.text, List.mem_map.2 ⟨r, hr, rfl⟩, hc⟩
    have hnil : pyStrip r.text = [] := (pyStrip_eq_nil_iff _).2 htext
    unfold runAccepted
    rw [hnil]
    simp
  unfold translate_paragraph_runs
  dsimp only
  rw [List.map_congr_left fun r hr => hskip r hr]
  exact List.map_id rs

/-- Counterexample for claim C5 as stated: a raising injected callback makes
`process_paragraph` itself raise — the `except` clause in the source logs
the error and re-raises, so the exception does propagate past the paragraph
being processed, the failing run's neighbours are never reached, and no run
list is returned at all. -/
theorem callback_exception_propagates_past_paragraph :
    process_paragraph_exc (E := Unit) (F := Unit) should_translate_text_word
        (fun _ => Except.error ()) [⟨"ab".toList, ()⟩, ⟨"cd".toList, ()⟩] =
      Except.error () := by
  rfl

/-- Claim C5 (amended): the engine itself does not catch callback
exceptions; recovery happens inside the default callback `translate_text`,
which catches its own API errors and returns its input unchanged.  With the
default callback the paragraph pass never raises, and any run whose core the
API fails on keeps its original text. -/
theorem process_paragraph_default_callback_recovery {E F : Type}
    (pred : PyStr → Bool) (api : PyStr → Except E PyStr) (rs : List (PRun F)) :
    process_paragraph_exc (E := E) pred (fun s => Except.ok (translate_text api s)) rs =
      Except.ok ((translate_paragraph_runs pred (translate_text api) rs).1) ∧
    (∀ r : PRun F, ∀ e : E, api (pyStrip r.text) = Except.error e →
      (processRun pred (translate_text api) r).1.text = r.text) := by
  constructor
  · unfold process_paragraph_exc
    by_cases hg : (pyStrip (paragraphText rs)).isEmpty = true
    · rw [if_pos hg, translate_paragraph_runs_all_ws pred _ rs hg]
    · rw [if_neg hg, translate_paragraph_runs_exc_ok]
  · intro r e herr
    by_cases hacc : runAccepted pred r.text = true
    · rw [processRun_fst_accepted pred _ r hacc]
      have hcore : pyStrip r.text ≠ [] := by
        unfold runAccepted at hacc
        rw [Bool.and_eq_true, Bool.and_eq_true] at hacc
        have hne := hacc.1.2
        rw [Bool.not_eq_true'] at hne
        intro hnil
        rw [hnil] at hne
        simp at hne
      have htt : translate_text api (pyStrip r.text) = pyStrip r.text := by
        unfold translate_text
        have h1 : (pyStrip r.text).isEmpty = false := by
          rw [Bool.eq_false_iff]
          intro hT
          exact hcore (List.isEmpty_iff.1 hT)
        have h2 : (pyStrip (pyStrip r.text)).isEmpty = false := by
          rw [Bool.eq_false_iff]
          intro hT
          have hws := (pyStrip_eq_nil_iff (pyStrip r.text)).1 (List.isEmpty_iff.1 hT)
          rw [pyStrip_all_ws_eq_false r.text hcore] at hws
          exact Bool.noConfusion hws
        rw [h1, h2]
        simp [herr]
      dsimp only
      rw [htt]
      exact leading_strip_trailing r.text hcore
    · rw [processRun_fst_skipped pred _ r (by simpa using hacc)]

/-- Witness for the amended claim C5: with the default callback wrapping an
always-failing API, a one-run paragraph passes without an exception and the
run's text is unchanged. -/
theorem process_paragraph_default_callback_recovery_witness :
    process_paragraph_exc (E := Unit) (F := Unit) should_translate_text_word
        (fun s => Except.ok (translate_text (fun _ => Except.error ()) s))
        [⟨"  hi  ".toList, ()⟩] =
      Except.ok [⟨"  hi  ".toList, ()⟩] ∧
    (processRun should_translate_text_word
        (translate_text (E := Unit) (fun _ => Except.error ()))
        ⟨"  hi  ".toList, ()⟩).1.text = "  hi  ".toList := by
  have h := process_paragraph_default_callback_recovery (E := Unit) (F := Unit)
    should_translate_text_word (fun _ => Except.error ()) [⟨"  hi  ".toList, ()⟩]
  constructor
  · rw [h.1]
    rfl
  · exact h.2 ⟨"  hi  ".toList, ()⟩ () rfl

/-- Decimal digit character for a single digit (the building block of
Python's decimal rendering of the marker index in `f"P{idx}"`). -/
def digitChar (m : Nat) : Char :=
  match m with
  | 0 => '0' | 1 => '1' | 2 => '2' | 3 => '3' | 4 => '4'
  | 5 => '5' | 6 => '6' | 7 => '7' | 8 => '8' | _ => '9'

/-- Decimal digits of `n`, most significant first, computed with explicit
fuel so that the definition is structural; `natDigits` below always supplies
enough fuel (`n+1` exceeds the number of decimal digits of `n`). -/
def natDigitsAux : Nat → Nat → List Char
  | 0, _ => []
  | fuel + 1, n =>
    if n < 10 then [digitChar n]
    else natDigitsAux fuel (n / 10) ++ [digitChar (n % 10)]

/-- Decimal rendering of a natural number, as Python's `f"{idx}"`. -/
def natDigits (n : Nat) : List Char :=
  natDigitsAux (n + 1) n

/-- The positional marker `f"[P{idx}]"` of
`TextProcessor.insert_format_markers` (src/processors/text_processor.py,
lines 89-131). -/
def markerStr (idx : Nat) : List Char :=
  '[' :: 'P' :: (natDigits idx ++ [']'])

/-- Attempt to match the regular expression `\[P\d+\]` at the head of the
string (as Python's `re` does when scanning: after `[P`, a maximal digit
run, then a closing bracket).  Returns the remainder after the match. -/
def matchMarkerAt (s : List Char) : Option (List Char) :=
  match s with
  | c1 :: c2 :: rest =>
    if c1 = '[' ∧ c2 = 'P' then
      if (rest.takeWhile Char.isDigit).isEmpty then none
      else
        match rest.drop (rest.takeWhile Char.isDigit).length with
        | c3 :: after => if c3 = ']' then some after else none
        | [] => none
    else none
  | _ => none

/-- Whether some position of the string starts a `\[P\d+\]` match. -/
def hasMarker : List Char → Bool
  | [] => false
  | c :: cs => (matchMarkerAt (c :: cs)).isSome || hasMarker cs

/-- A successful marker match consumes at least one character. -/
theorem matchMarkerAt_length (s r : List Char) (h : matchMarkerAt s = some r) :
    r.length < s.length := by
  unfold matchMarkerAt at h
  match s with
  | [] => exact absurd h (by simp)
  | [c1] => exact absurd h (by simp)
  | c1 :: c2 :: rest =>
    simp only at h
    by_cases hb : c1 = '[' ∧ c2 = 'P'
    · rw [if_pos hb] at h
      by_cases hds : (rest.takeWhile Char.isDigit).isEmpty
      · rw [if_pos hds] at h
        exact absurd h (by simp)
      · rw [if_neg hds] at h
        cases hdrop : rest.drop (rest.takeWhile Char.isDigit).length with
        | nil => rw [hdrop] at h; exact absurd h (by simp)
        | cons c3 after =>
          rw [hdrop] at h
          dsimp only at h
          by_cases hc3 : c3 = ']'
          · rw [if_pos hc3] at h
            cases h
            have hlen := congrArg List.length hdrop
            rw [List.length_drop] at hlen
            simp only [List.length_cons] at hlen
            have hcc : (c1 :: c2 :: rest).length = rest.length + 2 := by simp
            omega
          · rw [if_neg hc3] at h
            exact absurd h (by simp)
    · rw [if_neg hb] at h
      exact absurd h (by simp)

/-- Single left-to-right pass of `re.sub(r'\[P\d+\]', '', text)` with
explicit fuel (any fuel at least the length of the string gives the real
result): at each position, delete a match and continue after it, otherwise
keep the character and move on. -/
def pyDeleteMarkersAux : Nat → List Char → List Char
  | 0, s => s
  | fuel + 1, s =>
    match s with
    | [] => []
    | c :: cs =>
      match matchMarkerAt (c :: cs) with
      | some rest => pyDeleteMarkersAux fuel rest
      | none => c :: pyDeleteMarkersAux fuel cs

/-- Model of `re.sub(r'\[P\d+\]', '', text)`. -/
def pyDeleteMarkers (s : List Char) : List Char :=
  pyDeleteMarkersAux s.length s

/-- Model of Python's `text.split('\n')`: always non-empty, no separator in
any piece. -/
def pySplitNl : List Char → List (List Char)
  | [] => [[]]
  | c :: cs =>
    if c = '\n' then [] :: pySplitNl cs
    else
      match pySplitNl cs with
      | [] => [[c]]
      | l :: ls => (c :: l) :: ls

/-- Model of Python's `'\n'.join(lines)`. -/
def pyJoinNl : List (List Char) → List Char
  | [] => []
  | [l] => l
  | l :: ls => l ++ '\n' :: pyJoinNl ls

/-- Map with the running index of `enumerate`. -/
def mapIdx {α β : Type} (f : Nat → α → β) : Nat → List α → List β
  | _, [] => []
  | i, a :: as => f i a :: mapIdx f (i + 1) as

/-- The per-line data `insert_format_markers` records and
`remove_format_markers` consults: leading/trailing whitespace counts and
blankness.  The source also stores the position span and original text, but
never reads them back. -/
structure MarkerProps where
  lead : Nat
  trail : Nat
  isBlank : Bool
deriving DecidableEq, Repr

/-- Per-line properties, as computed at lines 103-105 of
src/processors/text_processor.py. -/
def lineProps (line : List Char) : MarkerProps :=
  { lead := line.length - (pyLstrip line).length
    trail := line.length - (pyRstrip line).length
    isBlank := (pyStrip line).isEmpty }

/-- Embedding of `TextProcessor.insert_format_markers`: prefix each line
with its positional marker, and record the marker info keyed by line index
(the dict keys `f"P{idx}"` are in bijection with the indices). -/
def insert_format_markers (text : List Char) : List Char × List MarkerProps :=
  let lines := pySplitNl text
  (pyJoinNl (mapIdx (fun idx line => markerStr idx ++ line) 0 lines),
   lines.map lineProps)

/-- One iteration of the marker-removal loop (lines 144-156 of
src/processors/text_processor.py): delete all marker tokens from the line,
then, when marker info for this index exists and the original line was not
blank, restore the recorded spacing as spaces around the stripped line. -/
def removeMarkerStep (markers : List MarkerProps) (idx : Nat) (line : List Char) :
    List Char :=
  let clean_line := pyDeleteMarkers line
  match markers.get? idx with
  | some props =>
    if props.isBlank = false then
      List.replicate props.lead ' ' ++ pyStrip clean_line ++ List.replicate props.trail ' '
    else clean_line
  | none => clean_line

/-- Embedding of `TextProcessor.remove_format_markers`
(src/processors/text_processor.py, lines 133-164): with marker info the text
is processed line by line; without it, one global regex deletion. -/
def remove_format_markers (text : List Char) (markers : Option (List MarkerProps)) :
    List Char :=
  match markers with
  | some ms => pyJoinNl (mapIdx (removeMarkerStep ms) 0 (pySplitNl text))
  | none => pyDeleteMarkers text

/-- Every character a single-digit index renders to is a decimal digit. -/
theorem digitChar_isDigit (m : Nat) : (digitChar m).isDigit = true := by
  unfold digitChar
  split <;> decide

/-- The decimal rendering is made of digit characters only. -/
theorem natDigitsAux_all (fuel : Nat) : ∀ n, (natDigitsAux fuel n).all Char.isDigit = true := by
  induction fuel with
  | zero => intro n; rfl
  | succ f ih =>
    intro n
    unfold natDigitsAux
    by_cases h : n < 10
    · simp [h, digitChar_isDigit]
    · simp [h, List.all_append, ih, digitChar_isDigit]

/-- The decimal rendering of a number is never empty. -/
theorem natDigitsAux_ne_nil (fuel n : Nat) : natDigitsAux (fuel + 1) n ≠ [] := by
  unfold natDigitsAux
  by_cases h : n < 10
  · simp [h]
  · simp [h]

/-- The decimal rendering of an index is all digits. -/
theorem natDigits_all (n : Nat) : (natDigits n).all Char.isDigit = true :=
  natDigitsAux_all _ _

/-- The decimal rendering of an index is non-empty. -/
theorem natDigits_ne_nil (n : Nat) : natDigits n ≠ [] :=
  natDigitsAux_ne_nil n n

/-- `hasMarker` on a cons splits into no match here and no match later. -/
theorem hasMarker_cons_false (c : Char) (cs : List Char)
    (h : hasMarker (c :: cs) = false) :
    matchMarkerAt (c :: cs) = none ∧ hasMarker cs = false := by
  unfold hasMarker at h
  have hpair : (matchMarkerAt (c :: cs)).isSome = false ∧ hasMarker cs = false := by
    simpa using h
  refine ⟨?_, hpair.2⟩
  cases hm : matchMarkerAt (c :: cs) with
  | none => rfl
  | some rest =>
    rw [hm] at hpair
    exact absurd hpair.1 (by simp)

/-- The regex pass does not depend on the fuel, as long as the fuel covers
the length of the string. -/
theorem pyDeleteMarkersAux_fuel (f1 : Nat) : ∀ (s : List Char) (f2 : Nat),
    s.length ≤ f1 → s.length ≤ f2 →
    pyDeleteMarkersAux f1 s = pyDeleteMarkersAux f2 s := by
  induction f1 with
  | zero =>
    intro s f2 h1 _
    have hs : s = [] := List.eq_nil_of_length_eq_zero (Nat.le_zero.1 h1)
    subst hs
    cases f2 <;> rfl
  | succ f ih =>
    intro s f2 h1 h2
    match s with
    | [] => cases f2 <;> rfl
    | c :: cs =>
      obtain ⟨f2', rfl⟩ : ∃ f2', f2 = f2' + 1 := by
        cases f2 with
        | zero => simp at h2
        | succ k => exact ⟨k, rfl⟩
      show pyDeleteMarkersAux (f + 1) (c :: cs) = pyDeleteMarkersAux (f2' + 1) (c :: cs)
      cases hm : matchMarkerAt (c :: cs) with
      | some rest =>
        have hr := matchMarkerAt_length _ _ hm
        unfold pyDeleteMarkersAux
        dsimp only
        rw [hm]
        simp only [List.length_cons] at h1 h2 hr
        exact ih rest f2' (by omega) (by omega)
      | none =>
        unfold pyDeleteMarkersAux
        dsimp only
        rw [hm]
        simp only [List.length_cons] at h1 h2
        exact congrArg (c :: ·) (ih cs f2' (by omega) (by omega))

/-- A string with no marker occurrence passes through the regex deletion
unchanged. -/
theorem pyDeleteMarkersAux_no_marker (fuel : Nat) : ∀ (s : List Char),
    s.length ≤ fuel → hasMarker s = false → pyDeleteMarkersAux fuel s = s := by
  induction fuel with
  | zero =>
    intro s h1 _
    have hs : s = [] := List.eq_nil_of_length_eq_zero (Nat.le_zero.1 h1)
    subst hs
    rfl
  | succ f ih =>
    intro s h1 hm
    match s with
    | [] => rfl
    | c :: cs =>
      obtain ⟨hnone, hcs⟩ := hasMarker_cons_false c cs hm
      unfold pyDeleteMarkersAux
      dsimp only
      rw [hnone]
      simp only [List.length_cons] at h1
      exact congrArg (c :: ·) (ih cs (by omega) hcs)

/-- Claim-facing form: `re.sub` deletion is the identity on marker-free
strings. -/
theorem pyDeleteMarkers_no_marker (s : List Char) (h : hasMarker s = false) :
    pyDeleteMarkers s = s :=
  pyDeleteMarkersAux_no_marker s.length s (Nat.le_refl _) h

/-- The marker `[P{idx}]` matches at its own head, consuming exactly
itself. -/
theorem matchMarkerAt_markerStr (i : Nat) (l : List Char) :
    matchMarkerAt (markerStr i ++ l) = some l := by
  have hre : markerStr i ++ l = '[' :: 'P' :: (natDigits i ++ (']' :: l)) := by
    simp [markerStr]
  rw [hre]
  unfold matchMarkerAt
  dsimp only
  rw [if_pos ⟨rfl, rfl⟩]
  have hds : (natDigits i ++ (']' :: l)).takeWhile Char.isDigit = natDigits i := by
    rw [takeWhile_append_all Char.isDigit _ (natDigits_all i)]
    have hnd : Char.isDigit ']' = false := by decide
    simp [List.takeWhile_cons, hnd]
  rw [hds]
  have hne : (natDigits i).isEmpty = false := by
    rw [Bool.eq_false_iff]
    intro hT
    exact natDigits_ne_nil i (List.isEmpty_iff.1 hT)
  rw [hne]
  simp only [Bool.false_eq_true, if_false]
  have hdrop : (natDigits i ++ (']' :: l)).drop (natDigits i).length = ']' :: l :=
    List.drop_left _ _
  rw [hdrop]
  dsimp only
  rw [if_pos rfl]

/-- A head match survives appending on the right. -/
theorem matchMarkerAt_append (t u r : List Char) (h : matchMarkerAt t = some u) :
    matchMarkerAt (t ++ r) = some (u ++ r) := by
  match t with
  | [] => simp [matchMarkerAt] at h
  | [c] => simp [matchMarkerAt] at h
  | c1 :: c2 :: rest =>
    unfold matchMarkerAt at h ⊢
    dsimp only at h
    simp only [List.cons_append]
    by_cases hb : c1 = '[' ∧ c2 = 'P'
    case neg =>
      rw [if_neg hb] at h
      exact absurd h (by simp)
    rw [if_pos hb] at h ⊢
    by_cases hds : (rest.takeWhile Char.isDigit).isEmpty = true
    · rw [if_pos hds] at h
      exact absurd h (by simp)
    · rw [if_neg hds] at h
      cases hdrop : rest.drop (rest.takeWhile Char.isDigit).length with
      | nil =>
        rw [hdrop] at h
        exact absurd h (by simp)
      | cons c3 after =>
        rw [hdrop] at h
        dsimp only at h
        by_cases hc3 : c3 = ']'
        · rw [if_pos hc3] at h
          cases h
          have hstop : rest.takeWhile Char.isDigit ≠ rest := by
            intro he
            rw [he, List.drop_length] at hdrop
            exact absurd hdrop (by simp)
          have htw : (rest ++ r).takeWhile Char.isDigit = rest.takeWhile Char.isDigit :=
            takeWhile_append_stop _ _ hstop
          rw [htw, if_neg hds]
          have hdd : (rest ++ r).drop (rest.takeWhile Char.isDigit).length =
              c3 :: (u ++ r) := by
            rw [List.drop_append_of_le_length (List.takeWhile_sublist _).length_le, hdrop]
            rfl
          rw [hdd]
          dsimp only
          rw [if_pos hc3]
        · rw [if_neg hc3] at h
          exact absurd h (by simp)

/-- No match can start inside a marker-free non-empty block even when a
`'['`-headed block follows it. -/
theorem matchMarkerAt_append_none (y z : List Char) (hy : y ≠ [])
    (h : matchMarkerAt y = none) :
    matchMarkerAt (y ++ '[' :: z) = none := by
  match y with
  | [] => exact absurd rfl hy
  | [c] =>
    unfold matchMarkerAt
    simp only [List.cons_append, List.nil_append]
    rw [if_neg (by rintro ⟨_, hP⟩; exact absurd hP (by decide))]
  | c1 :: c2 :: rest =>
    unfold matchMarkerAt at h ⊢
    dsimp only at h
    simp only [List.cons_append]
    by_cases hb : c1 = '[' ∧ c2 = 'P'
    case neg =>
      rw [if_neg hb]
    rw [if_pos hb] at h ⊢
    by_cases hall : rest.takeWhile Char.isDigit = rest
    · have htw : (rest ++ '[' :: z).takeWhile Char.isDigit = rest := by
        have hrall : rest.all Char.isDigit = true := by
          rw [List.all_eq_true]
          intro x hx
          exact List.mem_takeWhile_imp (hall ▸ hx)
        rw [takeWhile_append_all Char.isDigit _ hrall]
        have hnd : Char.isDigit '[' = false := by decide
        simp [List.takeWhile_cons, hnd]
      rw [htw]
      cases rest with
      | nil => simp
      | cons a as =>
        rw [if_neg (by simp)]
        have hdd : ((a :: as) ++ '[' :: z).drop (a :: as).length = '[' :: z :=
          List.drop_left _ _
        rw [hdd]
        dsimp only
        rw [if_neg (by decide)]
    · have htw : (rest ++ '[' :: z).takeWhile Char.isDigit = rest.takeWhile Char.isDigit :=
        takeWhile_append_stop _ _ hall
      rw [htw]
      by_cases hds : (rest.takeWhile Char.isDigit).isEmpty = true
      · rw [if_pos hds]
      · rw [if_neg hds] at h ⊢
        cases hdrop : rest.drop (rest.takeWhile Char.isDigit).length with
        | nil =>
          exfalso
          apply hall
          have hlen := congrArg List.length hdrop
          rw [List.length_drop] at hlen
          simp only [List.length_nil] at hlen
          have hle := (List.takeWhile_sublist (l := rest) Char.isDigit).length_le
          have hdw : (rest.dropWhile Char.isDigit).length = 0 := by
            have hadd := length_takeWhile_add Char.isDigit rest
            omega
          have hdwnil : rest.dropWhile Char.isDigit = [] :=
            List.eq_nil_of_length_eq_zero hdw
          conv_rhs => rw [← List.takeWhile_append_dropWhile Char.isDigit rest]
          rw [hdwnil, List.append_nil]
        | cons c3 after =>
          rw [hdrop] at h
          dsimp only at h
          have hdd : (rest ++ '[' :: z).drop (rest.takeWhile Char.isDigit).length =
              c3 :: (after ++ '[' :: z) := by
            rw [List.drop_append_of_le_length (List.takeWhile_sublist _).length_le, hdrop]
            rfl
          rw [hdd]
          dsimp only
          by_cases hc3 : c3 = ']'
          · rw [if_pos hc3] at h
            exact absurd h (by simp)
          · rw [if_neg hc3]

/-- A marker token is at least four characters long. -/
theorem markerStr_length (n : Nat) : 4 ≤ (markerStr n).length := by
  unfold markerStr
  have h1 : 1 ≤ (natDigits n).length := by
    have := natDigits_ne_nil n
    cases hx : natDigits n with
    | nil => exact absurd hx this
    | cons a as => simp
  simp only [List.length_cons, List.length_append, List.length_singleton]
  omega

/-- Deleting markers from `a ++ [P{n}] ++ b` where `a` is marker-free
removes exactly the marker occurrence and recurses into `b` (fuel form). -/
theorem pyDeleteMarkersAux_append_marker : ∀ (a : List Char) (fuel n : Nat) (b : List Char),
    (a ++ (markerStr n ++ b)).length ≤ fuel → hasMarker a = false →
    pyDeleteMarkersAux fuel (a ++ (markerStr n ++ b)) = a ++ pyDeleteMarkers b := by
  intro a
  induction a with
  | nil =>
    intro fuel n b hlen _
    simp only [List.nil_append] at hlen ⊢
    have hml := markerStr_length n
    rw [List.length_append] at hlen
    obtain ⟨f, rfl⟩ : ∃ f, fuel = f + 1 := by
      cases fuel with
      | zero => omega
      | succ k => exact ⟨k, rfl⟩
    have hcons : markerStr n ++ b = '[' :: ('P' :: (natDigits n ++ [']']) ++ b) := by
      simp [markerStr]
    rw [hcons]
    unfold pyDeleteMarkersAux
    dsimp only
    rw [show matchMarkerAt ('[' :: ('P' :: (natDigits n ++ [']']) ++ b)) = some b from by
      rw [← hcons]; exact matchMarkerAt_markerStr n b]
    exact pyDeleteMarkersAux_fuel f b b.length (by omega) (Nat.le_refl _)
  | cons c a' ih =>
    intro fuel n b hlen hmk
    obtain ⟨hnone, ha'⟩ := hasMarker_cons_false c a' hmk
    simp only [List.cons_append, List.length_cons] at hlen
    obtain ⟨f, rfl⟩ : ∃ f, fuel = f + 1 := by
      cases fuel with
      | zero => omega
      | succ k => exact ⟨k, rfl⟩
    have hmatch : matchMarkerAt (c :: (a' ++ (markerStr n ++ b))) = none := by
      have hz : markerStr n ++ b = '[' :: ('P' :: (natDigits n ++ [']']) ++ b) := by
        simp [markerStr]
      rw [show c :: (a' ++ (markerStr n ++ b)) = (c :: a') ++ (markerStr n ++ b) from rfl, hz]
      exact matchMarkerAt_append_none (c :: a') _ (by simp) hnone
    show pyDeleteMarkersAux (f + 1) (c :: (a' ++ (markerStr n ++ b))) =
      c :: (a' ++ pyDeleteMarkers b)
    unfold pyDeleteMarkersAux
    dsimp only
    rw [hmatch]
    exact congrArg (c :: ·) (ih f n b (by omega) ha')

/-- Deleting markers from `a ++ [P{n}] ++ b` where `a` is marker-free. -/
theorem pyDeleteMarkers_append_marker (a : List Char) (n : Nat) (b : List Char)
    (h : hasMarker a = false) :
    pyDeleteMarkers (a ++ (markerStr n ++ b)) = a ++ pyDeleteMarkers b :=
  pyDeleteMarkersAux_append_marker a _ n b (Nat.le_refl _) h

/-- Claim C10: `remove_format_markers` without marker info performs the one
global `re.sub(r'\[P\d+\]', '', text)` pass on any input and never raises:
it is the identity on marker-free text, deletes each `[P<digits>]`
occurrence even when it is genuine document content, and on the concrete
input "Ref [P12] here." silently loses the bracketed token. -/
theorem remove_format_markers_no_info (s a b : List Char) (n : Nat)
    (hs : hasMarker s = false) (hA : hasMarker a = false) :
    remove_format_markers s none = pyDeleteMarkers s ∧
    remove_format_markers s none = s ∧
    remove_format_markers (a ++ (markerStr n ++ b)) none =
      a ++ remove_format_markers b none ∧
    remove_format_markers ("Ref [P12] here.".toList) none = "Ref  here.".toList := by
  refine ⟨rfl, pyDeleteMarkers_no_marker s hs,
    pyDeleteMarkers_append_marker a n b hA, by decide⟩

/-- Witness for claim C10: "Ref [P12] here." decomposes around a genuine
marker-shaped token, which the no-info removal silently deletes, while
marker-free text passes through unchanged. -/
theorem remove_format_markers_no_info_witness :
    remove_format_markers ("Ref [P12] here.".toList) none =
      "Ref ".toList ++ remove_format_markers (" here.".toList) none ∧
    remove_format_markers ("no tokens".toList) none = "no tokens".toList := by
  have h := remove_format_markers_no_info ("no tokens".toList) ("Ref ".toList)
    (" here.".toList) 12 (by decide) (by decide)
  constructor
  · have h3 := h.2.2.1
    rw [show "Ref [P12] here.".toList =
      "Ref ".toList ++ (markerStr 12 ++ " here.".toList) from by decide]
    exact h3
  · exact h.2.1

/-- Splitting always yields at least one line. -/
theorem pySplitNl_ne_nil (t : List Char) : pySplitNl t ≠ [] := by
  induction t with
  | nil => simp [pySplitNl]
  | cons c cs ih =>
    unfold pySplitNl
    by_cases hc : c = '\n'
    · simp [hc]
    · rw [if_neg hc]
      cases h : pySplitNl cs with
      | nil => simp
      | cons l ls => simp

/-- No line produced by splitting contains the separator. -/
theorem pySplitNl_no_nl : ∀ (t : List Char), ∀ l ∈ pySplitNl t, '\n' ∉ l := by
  intro t
  induction t with
  | nil =>
    intro l hl
    simp only [pySplitNl, List.mem_singleton] at hl
    subst hl
    simp
  | cons c cs ih =>
    intro l hl
    unfold pySplitNl at hl
    by_cases hc : c = '\n'
    · rw [if_pos hc] at hl
      rcases List.mem_cons.1 hl with h1 | h2
      · subst h1; simp
      · exact ih l h2
    · rw [if_neg hc] at hl
      cases hsp : pySplitNl cs with
      | nil => exact absurd hsp (pySplitNl_ne_nil cs)
      | cons l0 ls =>
        rw [hsp] at hl
        rcases List.mem_cons.1 hl with h1 | h2
        · subst h1
          intro hmem
          rcases List.mem_cons.1 hmem with he | hm
          · exact hc he.symm
          · exact ih l0 (by rw [hsp]; exact List.mem_cons_self _ _) hm
        · exact ih l (by rw [hsp]; exact List.mem_cons_of_mem _ h2)

/-- Joining the split lines recovers the text. -/
theorem pyJoin_pySplit (t : List Char) : pyJoinNl (pySplitNl t) = t := by
  induction t with
  | nil => rfl
  | cons c cs ih =>
    unfold pySplitNl
    by_cases hc : c = '\n'
    · rw [if_pos hc]
      cases hsp : pySplitNl cs with
      | nil => exact absurd hsp (pySplitNl_ne_nil cs)
      | cons l0 ls =>
        subst hc
        show pyJoinNl ([] :: l0 :: ls) = '\n' :: cs
        show [] ++ '\n' :: pyJoinNl (l0 :: ls) = '\n' :: cs
        rw [List.nil_append, ← hsp, ih]
    · rw [if_neg hc]
      cases hsp : pySplitNl cs with
      | nil => exact absurd hsp (pySplitNl_ne_nil cs)
      | cons l0 ls =>
        cases ls with
        | nil =>
          have hcs : l0 = cs := by rw [hsp] at ih; exact ih
          show c :: l0 = c :: cs
          rw [hcs]
        | cons l1 ls' =>
          show (c :: l0) ++ '\n' :: pyJoinNl (l1 :: ls') = c :: cs
          rw [hsp] at ih
          have ih2 : l0 ++ '\n' :: pyJoinNl (l1 :: ls') = cs := ih
          rw [← ih2]
          simp [List.cons_append]

/-- Splitting a separator-free line is the singleton. -/
theorem pySplit_single (l : List Char) (h : '\n' ∉ l) : pySplitNl l = [l] := by
  induction l with
  | nil => rfl
  | cons c cs ih =>
    unfold pySplitNl
    have hc : ¬ c = '\n' := fun he => h (he ▸ List.mem_cons_self c cs)
    rw [if_neg hc]
    rw [ih (fun hm => h (List.mem_cons_of_mem c hm))]

/-- Splitting `l ++ '\n' :: r` peels off the separator-free first line. -/
theorem pySplit_append_nl (l : List Char) (r : List Char) (h : '\n' ∉ l) :
    pySplitNl (l ++ '\n' :: r) = l :: pySplitNl r := by
  induction l with
  | nil =>
    simp only [List.nil_append]
    conv_lhs => unfold pySplitNl
    rw [if_pos rfl]
  | cons c cs ih =>
    have hc : ¬ c = '\n' := fun he => h (he ▸ List.mem_cons_self c cs)
    simp only [List.cons_append]
    conv_lhs => unfold pySplitNl
    rw [if_neg hc, ih (fun hm => h (List.mem_cons_of_mem c hm))]

/-- Splitting is a left inverse of joining for separator-free non-empty line
lists. -/
theorem pySplit_pyJoin : ∀ (L : List (List Char)), L ≠ [] →
    (∀ l ∈ L, '\n' ∉ l) → pySplitNl (pyJoinNl L) = L := by
  intro L
  induction L with
  | nil => intro hL _; exact absurd rfl hL
  | cons l0 ls ih =>
    intro _ h
    cases ls with
    | nil => exact pySplit_single l0 (h l0 (by simp))
    | cons l1 ls' =>
      show pySplitNl (l0 ++ '\n' :: pyJoinNl (l1 :: ls')) = l0 :: l1 :: ls'
      rw [pySplit_append_nl l0 _ (h l0 (by simp))]
      rw [ih (by simp) (fun l hl => h l (List.mem_cons_of_mem _ hl))]

/-- A marker-free text splits into marker-free lines (the marker pattern
contains no newline, so an occurrence inside a line would be an occurrence
in the text). -/
theorem hasMarker_lines : ∀ (t : List Char), hasMarker t = false →
    ∀ l ∈ pySplitNl t, hasMarker l = false := by
  intro t
  induction t with
  | nil =>
    intro _ l hl
    simp only [pySplitNl, List.mem_singleton] at hl
    subst hl
    rfl
  | cons c cs ih =>
    intro h l hl
    obtain ⟨hnone, hcs⟩ := hasMarker_cons_false c cs h
    unfold pySplitNl at hl
    by_cases hc : c = '\n'
    · rw [if_pos hc] at hl
      rcases List.mem_cons.1 hl with h1 | h2
      · subst h1; rfl
      · exact ih hcs l h2
    · rw [if_neg hc] at hl
      cases hsp : pySplitNl cs with
      | nil => exact absurd hsp (pySplitNl_ne_nil cs)
      | cons l0 ls =>
        rw [hsp] at hl
        rcases List.mem_cons.1 hl with h1 | h2
        · subst h1
          have hl0 : hasMarker l0 = false :=
            ih hcs l0 (by rw [hsp]; exact List.mem_cons_self _ _)
          have hmm : matchMarkerAt (c :: l0) = none := by
            cases hmc : matchMarkerAt (c :: l0) with
            | none => rfl
            | some u =>
              exfalso
              cases ls with
              | nil =>
                have hc0 : l0 = cs := by
                  have hjs := pyJoin_pySplit cs
                  rw [hsp] at hjs
                  exact hjs
                rw [hc0] at hmc
                rw [hmc] at hnone
                exact Option.noConfusion hnone
              | cons l1 ls' =>
                have hc0 : cs = l0 ++ '\n' :: pyJoinNl (l1 :: ls') := by
                  have hjs := pyJoin_pySplit cs
                  rw [hsp] at hjs
                  exact hjs.symm
                have hlift := matchMarkerAt_append (c :: l0) u
                  ('\n' :: pyJoinNl (l1 :: ls')) hmc
                rw [show (c :: l0) ++ '\n' :: pyJoinNl (l1 :: ls') = c :: cs from by
                  rw [hc0]; rfl] at hlift
                rw [hnone] at hlift
                exact Option.noConfusion hlift
          unfold hasMarker
          rw [hmm, hl0]
          rfl
        · exact ih hcs l (by rw [hsp]; exact List.mem_cons_of_mem _ h2)

/-- `mapIdx` preserves length. -/
theorem mapIdx_length {α β : Type} (f : Nat → α → β) : ∀ (i : Nat) (L : List α),
    (mapIdx f i L).length = L.length := by
  intro i L
  induction L generalizing i with
  | nil => rfl
  | cons a as ih => simp [mapIdx, ih]

/-- Members of `mapIdx` are images of members. -/
theorem mem_mapIdx {α β : Type} (f : Nat → α → β) : ∀ (L : List α) (i : Nat) (l : β),
    l ∈ mapIdx f i L → ∃ n x, x ∈ L ∧ l = f n x := by
  intro L
  induction L with
  | nil => intro i l hl; simp [mapIdx] at hl
  | cons a as ih =>
    intro i l hl
    rcases List.mem_cons.1 hl with h1 | h2
    · exact ⟨i, a, by simp, h1⟩
    · obtain ⟨n, x, hx, hfx⟩ := ih (i + 1) l h2
      exact ⟨n, x, List.mem_cons_of_mem _ hx, hfx⟩

/-- The marker token contains no newline. -/
theorem markerStr_no_nl (i : Nat) : '\n' ∉ markerStr i := by
  unfold markerStr
  intro h
  simp only [List.mem_cons, List.mem_append, List.mem_singleton] at h
  rcases h with h1 | h2 | h3 | h4
  · exact absurd h1 (by decide)
  · exact absurd h2 (by decide)
  · have hall := natDigits_all i
    rw [List.all_eq_true] at hall
    have := hall '\n' h3
    exact absurd this (by decide)
  · exact absurd h4 (by decide)

/-- Core of the marker round trip: removing markers from the marked lines,
consulting the recorded properties, restores every line — provided no line
contains a marker occurrence of its own, and the leading/trailing whitespace
of each non-blank line consists of spaces only (the restoration replays
whitespace as `' '` characters). -/
theorem removeMarkerStep_mapIdx : ∀ (lines : List (List Char)) (i : Nat)
    (ms : List MarkerProps),
    (∀ j l, lines.get? j = some l → ms.get? (i + j) = some (lineProps l)) →
    (∀ l ∈ lines, hasMarker l = false) →
    (∀ l ∈ lines, (pyStrip l).isEmpty = false →
      (leadingWs l).all (fun c => c == ' ') = true ∧
      (trailingWs l).all (fun c => c == ' ') = true) →
    mapIdx (removeMarkerStep ms) i
      (mapIdx (fun idx line => markerStr idx ++ line) i lines) = lines := by
  intro lines
  induction lines with
  | nil => intro i ms _ _ _; rfl
  | cons l0 rest ih =>
    intro i ms hms hnm hsp
    show removeMarkerStep ms i (markerStr i ++ l0) ::
        mapIdx (removeMarkerStep ms) (i + 1)
          (mapIdx (fun idx line => markerStr idx ++ line) (i + 1) rest) = l0 :: rest
    have hclean : pyDeleteMarkers (markerStr i ++ l0) = l0 := by
      have hmk := pyDeleteMarkers_append_marker [] i l0 rfl
      simp only [List.nil_append] at hmk
      rw [hmk, pyDeleteMarkers_no_marker l0 (hnm l0 (by simp))]
    have hm0 : ms.get? i = some (lineProps l0) := by
      have := hms 0 l0 rfl
      simpa using this
    have hhead : removeMarkerStep ms i (markerStr i ++ l0) = l0 := by
      unfold removeMarkerStep
      rw [hm0]
      dsimp only
      rw [hclean]
      by_cases hb : (lineProps l0).isBlank = false
      · rw [if_pos hb]
        have hsnb : (pyStrip l0).isEmpty = false := hb
        obtain ⟨hla, hta⟩ := hsp l0 (by simp) hsnb
        have hstr : pyStrip l0 ≠ [] := by
          intro hh
          rw [hh] at hsnb
          simp at hsnb
        have hlstriplen : (pyLstrip l0).length ≤ l0.length := by
          unfold pyLstrip
          have := length_takeWhile_add pyIsSpaceChar l0
          omega
        have hrstriplen : (pyRstrip l0).length ≤ l0.length := by
          unfold pyRstrip
          rw [List.length_reverse]
          have := length_takeWhile_add pyIsSpaceChar l0.reverse
          rw [List.length_reverse] at this
          omega
        have hlead : List.replicate (lineProps l0).lead ' ' = leadingWs l0 := by
          symm
          rw [List.eq_replicate]
          constructor
          · show (leadingWs l0).length = l0.length - (pyLstrip l0).length
            unfold leadingWs
            rw [List.length_take]
            omega
          · intro b hb2
            rw [List.all_eq_true] at hla
            exact eq_of_beq (hla b hb2)
        have htrail : List.replicate (lineProps l0).trail ' ' = trailingWs l0 := by
          symm
          rw [List.eq_replicate]
          constructor
          · show (trailingWs l0).length = l0.length - (pyRstrip l0).length
            unfold trailingWs
            rw [List.length_drop]
          · intro b hb2
            rw [List.all_eq_true] at hta
            exact eq_of_beq (hta b hb2)
        rw [hlead, htrail]
        exact leading_strip_trailing l0 hstr
      · rw [if_neg hb]
    rw [hhead]
    refine congrArg (l0 :: ·) (ih (i + 1) ms ?_ ?_ ?_)
    · intro j l hj
      have hrec := hms (j + 1) l (by simpa using hj)
      rw [show i + 1 + j = i + (j + 1) from by omega]
      exact hrec
    · exact fun l hl => hnm l (List.mem_cons_of_mem _ hl)
    · exact fun l hl => hsp l (List.mem_cons_of_mem _ hl)

/-- Claim C9 (amended): the marker round trip with the identity callback
restores the original container text whenever the text contains no substring
matching the reserved marker pattern and every non-blank line's leading and
trailing whitespace consists of space characters only (restoration replays
edge whitespace as spaces, so e.g. an edge tab would come back as a space);
in particular "Line one\nLine two" round-trips to itself. -/
theorem insert_remove_format_markers_round_trip (text : List Char)
    (hnm : hasMarker text = false)
    (hsp : ∀ l ∈ pySplitNl text, (pyStrip l).isEmpty = false →
      (leadingWs l).all (fun c => c == ' ') = true ∧
      (trailingWs l).all (fun c => c == ' ') = true) :
    remove_format_markers (insert_format_markers text).1
      (some (insert_format_markers text).2) = text := by
  unfold insert_format_markers remove_format_markers
  dsimp only
  have hsplit : pySplitNl (pyJoinNl
      (mapIdx (fun idx line => markerStr idx ++ line) 0 (pySplitNl text))) =
      mapIdx (fun idx line => markerStr idx ++ line) 0 (pySplitNl text) := by
    apply pySplit_pyJoin
    · intro hnil
      have hlen := congrArg List.length hnil
      rw [mapIdx_length] at hlen
      exact pySplitNl_ne_nil text (List.eq_nil_of_length_eq_zero hlen)
    · intro l hl
      obtain ⟨n, x, hx, rfl⟩ := mem_mapIdx _ _ _ _ hl
      intro hmem
      rcases List.mem_append.1 hmem with h1 | h2
      · exact markerStr_no_nl n h1
      · exact pySplitNl_no_nl text x hx h2
  rw [hsplit]
  rw [removeMarkerStep_mapIdx (pySplitNl text) 0 ((pySplitNl text).map lineProps)
    ?_ (hasMarker_lines text hnm) hsp]
  · exact pyJoin_pySplit text
  · intro j l hj
    rw [Nat.zero_add, List.get?_map, hj]
    rfl

/-- Counterexample for claim C9 as stated: the container text `"\ta"`
contains no marker-pattern substring, yet the round trip with the identity
callback returns `" a"` — the recorded leading-whitespace count is replayed
as a space character, so the tab does not survive. -/
theorem marker_round_trip_loses_tab :
    hasMarker ("\ta".toList) = false ∧
    remove_format_markers (insert_format_markers ("\ta".toList)).1
      (some (insert_format_markers ("\ta".toList)).2) = " a".toList ∧
    " a".toList ≠ "\ta".toList := by
  refine ⟨by decide, by decide, by decide⟩

/-- Witness for the amended claim C9 at the spec's concrete example:
"Line one\nLine two" round-trips to itself. -/
theorem insert_remove_format_markers_round_trip_witness :
    hasMarker ("Line one\nLine two".toList) = false ∧
    remove_format_markers (insert_format_markers ("Line one\nLine two".toList)).1
      (some (insert_format_markers ("Line one\nLine two".toList)).2) =
      "Line one\nLine two".toList := by
  exact ⟨by decide,
    insert_remove_format_markers_round_trip ("Line one\nLine two".toList)
      (by decide) (by decide)⟩

/-- A run as the Word validator observes it: its text and the four
formatting attributes `_compare_run_formatting` reads (bold, italic,
underline, font name). -/
structure DocRun where
  text : PyStr
  bold : Option Bool
  italic : Option Bool
  underline : Option Int
  fontName : Option PyStr
deriving DecidableEq, Repr

/-- A paragraph is its ordered list of runs. -/
abbrev DocPara := List DocRun

/-- A table is its rows of cells; the validator only counts them. -/
abbrev DocTable := List (List Unit)

/-- The fragment of an in-memory Word document the validator walks. -/
structure WordDoc where
  paragraphs : List DocPara
  tables : List DocTable
deriving DecidableEq, Repr

/-- `paragraph.text`: concatenation of the run texts. -/
def paraText (p : DocPara) : PyStr :=
  (p.map DocRun.text).flatten

/-- The validation report entries, one constructor per format string of
src/word_validation/validator.py. -/
inductive VEntry
  | paraCount (a b : Nat)
  | tableCount (a b : Nat)
  | runCount (a b : Nat)
  | runFormat
  | rowCount (t a b : Nat)
  | cellCount (t r a b : Nat)
deriving DecidableEq, Repr

/-- Embedding of `WordFormatValidator._compare_run_formatting`
(src/word_validation/validator.py lines 128-143). -/
def compareRunFormatting (a b : DocRun) : Bool :=
  a.bold == b.bold && a.italic == b.italic &&
    a.underline == b.underline && a.fontName == b.fontName

/-- The zipped paragraph pairs where both texts strip to non-empty — the
pairs `_validate_paragraph_formatting` compares. -/
def comparablePairs (o t : WordDoc) : List (DocPara × DocPara) :=
  (o.paragraphs.zip t.paragraphs).filter fun pr =>
    !(pyStrip (paraText pr.1)).isEmpty && !(pyStrip (paraText pr.2)).isEmpty

/-- The warnings `_validate_paragraph_formatting` appends
(src/word_validation/validator.py lines 81-107): a run-count mismatch is a
warning, and so is every formatting mismatch of the zipped runs. -/
def paraWarnings (o t : WordDoc) : List VEntry :=
  (comparablePairs o t).flatMap fun pr =>
    (if pr.1.length ≠ pr.2.length then [VEntry.runCount pr.1.length pr.2.length]
     else []) ++
    ((pr.1.zip pr.2).flatMap fun rr =>
      if compareRunFormatting rr.1 rr.2 then [] else [VEntry.runFormat])

/-- The formatting preservation score of `_validate_paragraph_formatting`:
paragraph pairs with equal run counts over comparable pairs, 1.0 with no
comparable pair. -/
def formattingScore (o t : WordDoc) : ℚ :=
  if 0 < (comparablePairs o t).length then
    ((comparablePairs o t).countP fun pr => pr.1.length == pr.2.length) /
      ((comparablePairs o t).length : ℚ)
  else 1

/-- Embedding of `_validate_table_formatting`
(src/word_validation/validator.py lines 109-126): row and column count
mismatches are appended to the errors, but `structure_match` is not
touched.  The caller runs it only when both documents have tables. -/
def tableErrors (o t : WordDoc) : List VEntry :=
  if o.tables ≠ [] ∧ t.tables ≠ [] then
    (mapIdx (fun tIdx pr =>
      (if pr.1.length ≠ pr.2.length then
        [VEntry.rowCount tIdx pr.1.length pr.2.length] else []) ++
      (mapIdx (fun rIdx rr =>
        if rr.1.length ≠ rr.2.length then
          [VEntry.cellCount tIdx rIdx rr.1.length rr.2.length] else [])
        0 (pr.1.zip pr.2)).flatten)
      0 (o.tables.zip t.tables)).flatten
  else []

/-- The validation report. -/
structure VReport where
  structureMatch : Bool
  errors : List VEntry
  warnings : List VEntry
  formattingPreservationScore : ℚ
deriving DecidableEq, Repr

/-- Embedding of `WordFormatValidator.validate_document_structure`
(src/word_validation/validator.py lines 18-79): only paragraph-count and
table-count mismatches set `structure_match` to `False` and are the only
count errors besides the table row/cell errors. -/
def validate_document_structure (o t : WordDoc) : VReport :=
  { structureMatch := !(decide (o.paragraphs.length ≠ t.paragraphs.length)) &&
      !(decide (o.tables.length ≠ t.tables.length))
    errors :=
      (if o.paragraphs.length ≠ t.paragraphs.length then
        [VEntry.paraCount o.paragraphs.length t.paragraphs.length] else []) ++
      (if o.tables.length ≠ t.tables.length then
        [VEntry.tableCount o.tables.length t.tables.length] else []) ++
      tableErrors o t
    warnings := paraWarnings o t
    formattingPreservationScore := formattingScore o t }

/-- Every table error is a row-count or cell-count entry. -/
theorem tableErrors_shape (o t : WordDoc) (e : VEntry) (he : e ∈ tableErrors o t) :
    (∃ ti a b, e = VEntry.rowCount ti a b) ∨
    (∃ ti ri a b, e = VEntry.cellCount ti ri a b) := by
  unfold tableErrors at he
  by_cases hcond : o.tables ≠ [] ∧ t.tables ≠ []
  · rw [if_pos hcond] at he
    obtain ⟨sub, hsub, hesub⟩ := List.mem_flatten.1 he
    obtain ⟨n, pr, _, rfl⟩ := mem_mapIdx _ _ _ _ hsub
    rcases List.mem_append.1 hesub with h1 | h2
    · by_cases hrc : pr.1.length ≠ pr.2.length
      · rw [if_pos hrc] at h1
        rw [List.mem_singleton] at h1
        exact Or.inl ⟨n, pr.1.length, pr.2.length, h1⟩
      · rw [if_neg hrc] at h1
        exact absurd h1 (List.not_mem_nil e)
    · obtain ⟨sub2, hsub2, hesub2⟩ := List.mem_flatten.1 h2
      obtain ⟨m, rr, _, rfl⟩ := mem_mapIdx _ _ _ _ hsub2
      by_cases hcc : rr.1.length ≠ rr.2.length
      · rw [if_pos hcc] at hesub2
        rw [List.mem_singleton] at hesub2
        exact Or.inr ⟨n, m, rr.1.length, rr.2.length, hesub2⟩
      · rw [if_neg hcc] at hesub2
        exact absurd hesub2 (List.not_mem_nil e)
  · rw [if_neg hcond] at he
    exact absurd he (List.not_mem_nil e)

/-- Claim C4 (amended): `structure_match` is cleared exactly by a
paragraph-count or table-count mismatch; a run-count mismatch between
comparable paragraphs is reported, but as a warning, and run-count entries
never appear among the errors. -/
theorem validate_document_structure_spec (o t : WordDoc) :
    ((validate_document_structure o t).structureMatch = false ↔
      (o.paragraphs.length ≠ t.paragraphs.length ∨
        o.tables.length ≠ t.tables.length)) ∧
    (∀ po pt, (po, pt) ∈ comparablePairs o t → po.length ≠ pt.length →
      VEntry.runCount po.length pt.length ∈
        (validate_document_structure o t).warnings) ∧
    (∀ a b, VEntry.runCount a b ∉ (validate_document_structure o t).errors) := by
  refine ⟨?_, ?_, ?_⟩
  · unfold validate_document_structure
    by_cases h1 : o.paragraphs.length ≠ t.paragraphs.length <;>
      by_cases h2 : o.tables.length ≠ t.tables.length <;>
      simp [h1, h2]
  · intro po pt hmem hne
    show VEntry.runCount po.length pt.length ∈ paraWarnings o t
    unfold paraWarnings
    rw [List.mem_flatMap]
    refine ⟨(po, pt), hmem, ?_⟩
    apply List.mem_append_left
    rw [if_pos hne]
    exact List.mem_singleton.2 rfl
  · intro a b hmem
    unfold validate_document_structure at hmem
    dsimp only at hmem
    rcases List.mem_append.1 hmem with h12 | h3
    · rcases List.mem_append.1 h12 with h1 | h2
      · by_cases hp : o.paragraphs.length ≠ t.paragraphs.length
        · rw [if_pos hp] at h1
          rw [List.mem_singleton] at h1
          exact VEntry.noConfusion h1
        · rw [if_neg hp] at h1
          exact List.not_mem_nil _ h1
      · by_cases ht : o.tables.length ≠ t.tables.length
        · rw [if_pos ht] at h2
          rw [List.mem_singleton] at h2
          exact VEntry.noConfusion h2
        · rw [if_neg ht] at h2
          exact List.not_mem_nil _ h2
    · rcases tableErrors_shape o t _ h3 with ⟨ti, x, y, hrow⟩ | ⟨ti, ri, x, y, hcell⟩
      · exact VEntry.noConfusion hrow
      · exact VEntry.noConfusion hcell

/-- The spec's counterexample documents: the original paragraph has runs
["Hello ", " world"], the translated one ["Hello", " ", "world"], with no
other difference. -/
def c4OrigDoc : WordDoc :=
  ⟨[[⟨"Hello ".toList, none, none, none, none⟩,
     ⟨" world".toList, none, none, none, none⟩]], []⟩

/-- Translated counterpart of `c4OrigDoc` with an extra run. -/
def c4TransDoc : WordDoc :=
  ⟨[[⟨"Hello".toList, none, none, none, none⟩,
     ⟨" ".toList, none, none, none, none⟩,
     ⟨"world".toList, none, none, none, none⟩]], []⟩

/-- Counterexample for claim C4 as stated: for two documents differing only
in that one paragraph has an extra run, `validate_document_structure`
reports no error at all and leaves `structure_match` at `True`; the
run-count mismatch surfaces only as a warning. -/
theorem validator_run_count_mismatch_not_error :
    (validate_document_structure c4OrigDoc c4TransDoc).structureMatch = true ∧
    (validate_document_structure c4OrigDoc c4TransDoc).errors = [] ∧
    (validate_document_structure c4OrigDoc c4TransDoc).warnings =
      [VEntry.runCount 2 3] := by
  refine ⟨by decide, by decide, by decide⟩

/-- Witness for the amended claim C4: on the spec's extra-run documents the
run-count entry is among the warnings while `structure_match` stays true. -/
theorem validate_document_structure_spec_witness :
    VEntry.runCount 2 3 ∈
      (validate_document_structure c4OrigDoc c4TransDoc).warnings ∧
    (validate_document_structure c4OrigDoc c4TransDoc).structureMatch = true := by
  have h := validate_document_structure_spec c4OrigDoc c4TransDoc
  refine ⟨?_, by decide⟩
  exact h.2.1 (c4OrigDoc.paragraphs.headI) (c4TransDoc.paragraphs.headI)
    (by decide) (by decide)

/-- The zipped paragraph pairs whose original text strips to non-empty —
the comparable paragraphs of `validate_translation_quality`. -/
def qualityPairs (o t : WordDoc) : List (DocPara × DocPara) :=
  (o.paragraphs.zip t.paragraphs).filter fun pr =>
    !(pyStrip (paraText pr.1)).isEmpty

/-- Comparable paragraphs whose stripped original equals the stripped
translation. -/
def unchangedCount (o t : WordDoc) : Nat :=
  (qualityPairs o t).countP fun pr =>
    pyStrip (paraText pr.1) == pyStrip (paraText pr.2)

/-- Comparable paragraphs translated to blank. -/
def emptyTranslationCount (o t : WordDoc) : Nat :=
  (qualityPairs o t).countP fun pr => (pyStrip (paraText pr.2)).isEmpty

/-- Embedding of `WordFormatValidator.validate_translation_quality`
(src/word_validation/validator.py lines 145-203): the quality score over the
zipped paragraphs (only the score is modelled; the issue strings mirror the
two counters). -/
def validate_translation_quality (o t : WordDoc) : ℚ :=
  if 0 < (qualityPairs o t).length then
    (((qualityPairs o t).length : ℚ) - unchangedCount o t - emptyTranslationCount o t) /
      ((qualityPairs o t).length : ℚ)
  else 1

/-- Claim C8: the quality score is
`(total - unchanged - emptied) / total` over the comparable paragraphs; it
is 1.0 with zero comparable paragraphs, 1.0 when every non-empty paragraph
is translated to something different and non-blank, and 0.0 when
translation returns the input unchanged for every paragraph (and at least
one paragraph is comparable). -/
theorem validate_translation_quality_spec (o t : WordDoc) :
    (0 < (qualityPairs o t).length →
      validate_translation_quality o t =
        (((qualityPairs o t).length : ℚ) - unchangedCount o t -
          emptyTranslationCount o t) / ((qualityPairs o t).length : ℚ)) ∧
    ((qualityPairs o t).length = 0 → validate_translation_quality o t = 1) ∧
    ((∀ pr ∈ qualityPairs o t,
        pyStrip (paraText pr.2) ≠ pyStrip (paraText pr.1) ∧
        pyStrip (paraText pr.2) ≠ []) →
      validate_translation_quality o t = 1) ∧
    (0 < (qualityPairs o t).length →
      (∀ pr ∈ o.paragraphs.zip t.paragraphs,
        pyStrip (paraText pr.2) = pyStrip (paraText pr.1)) →
      validate_translation_quality o t = 0) := by
  refine ⟨?_, ?_, ?_, ?_⟩
  · intro h
    unfold validate_translation_quality
    rw [if_pos h]
  · intro h
    unfold validate_translation_quality
    rw [if_neg (by omega)]
  · intro hdiff
    have hunch : unchangedCount o t = 0 := by
      unfold unchangedCount
      rw [List.countP_eq_zero]
      intro pr hpr
      have := (hdiff pr hpr).1
      simp only [beq_iff_eq]
      exact fun he => this he.symm
    have hemp : emptyTranslationCount o t = 0 := by
      unfold emptyTranslationCount
      rw [List.countP_eq_zero]
      intro pr hpr
      have := (hdiff pr hpr).2
      simp only [List.isEmpty_iff]
      exact this
    by_cases hz : 0 < (qualityPairs o t).length
    · unfold validate_translation_quality
      rw [if_pos hz, hunch, hemp]
      push_cast
      rw [sub_zero, sub_zero]
      exact div_self (by exact_mod_cast Nat.pos_iff_ne_zero.1 hz)
    · unfold validate_translation_quality
      rw [if_neg hz]
  · intro hz hsame
    have hunch : unchangedCount o t = (qualityPairs o t).length := by
      unfold unchangedCount
      rw [List.countP_eq_length]
      intro pr hpr
      have hmem := (List.mem_filter.1 hpr).1
      simp only [beq_iff_eq]
      exact (hsame pr hmem).symm
    have hemp : emptyTranslationCount o t = 0 := by
      unfold emptyTranslationCount
      rw [List.countP_eq_zero]
      intro pr hpr
      have hcond := (List.mem_filter.1 hpr).2
      have hne : pyStrip (paraText pr.1) ≠ [] := by
        simp only [Bool.not_eq_true'] at hcond
        intro hni
        rw [hni] at hcond
        simp at hcond
      have heqs := hsame pr (List.mem_filter.1 hpr).1
      simp only [List.isEmpty_iff, heqs]
      exact hne
    unfold validate_translation_quality
    rw [if_pos hz, hunch, hemp]
    push_cast
    rw [sub_self]
    norm_num

/-- Witness for claim C8: a one-paragraph document properly translated
scores 1, and the same document translated by the identity scores 0. -/
theorem validate_translation_quality_spec_witness :
    validate_translation_quality
      ⟨[[⟨"Hello".toList, none, none, none, none⟩]], []⟩
      ⟨[[⟨"Bonjour".toList, none, none, none, none⟩]], []⟩ = 1 ∧
    validate_translation_quality
      ⟨[[⟨"Hello".toList, none, none, none, none⟩]], []⟩
      ⟨[[⟨"Hello".toList, none, none, none, none⟩]], []⟩ = 0 := by
  constructor
  · exact (validate_translation_quality_spec _ _).2.2.1 (by decide)
  · exact (validate_translation_quality_spec _ _).2.2.2 (by decide) (by decide)

/-- Python truthiness of an optional string (`if formatting.font_name:`
skips both `None` and the empty string). -/
def truthyStr : Option PyStr → Bool
  | none => false
  | some s => !s.isEmpty

/-- Python truthiness of an optional integer (`if formatting.font_size:`
skips both `None` and zero). -/
def truthyInt : Option Int → Bool
  | none => false
  | some v => decide (v ≠ 0)

/-- Python truthiness of an optional rational. -/
def truthyRat : Option ℚ → Bool
  | none => false
  | some v => decide (v ≠ 0)

/-- The `color_format` dict stored by the PowerPoint
`FormattingManager._get_color_format_info`: color type, and the optionally
present rgb / theme / brightness entries. -/
structure ColorInfo where
  ctype : Option Int
  rgb : Option Nat
  themeColor : Option Int
  brightness : Option ℚ
deriving DecidableEq, Repr

/-- Observable color state of a python-pptx `ColorFormat`. -/
structure PptColor where
  rgb : Option Nat
  themeColor : Option Int
  brightness : Option ℚ
deriving DecidableEq, Repr

/-- Model of `MSO_THEME_COLOR.NOT_THEME_COLOR`. -/
def notThemeColor : Int := 0

/-- Embedding of `FormattingManager._apply_color_format`
(src/formatting/manager.py lines 83-112): select the RGB or the theme
color first, and apply the brightness only when a color was selected. -/
def apply_color_format (c : PptColor) (info : ColorInfo) : PptColor :=
  let step :=
    if info.ctype = some 0 ∧ info.rgb.isSome then
      ({ c with rgb := info.rgb }, true)
    else if info.ctype = some 1 ∧ info.themeColor.isSome ∧
        info.themeColor ≠ some notThemeColor then
      ({ c with themeColor := info.themeColor }, true)
    else (c, false)
  if step.2 ∧ info.brightness.isSome then
    { step.1 with brightness := info.brightness }
  else step.1

/-- The PowerPoint per-run formatting record `TextRunFormatting`
(src/formatting/manager.py lines 11-54).  The dataclass annotates
bold/italic/underline as `bool = False`, but `collect_run_formatting`
stores `font.bold` etc., which python-pptx reports as `True`, `False` or
`None` (inherit), so the runtime values are tri-state. -/
structure TextRunFormatting where
  font_name : Option PyStr
  font_size : Option Int
  bold : Option Bool
  italic : Option Bool
  underline : Option Bool
  color_format : Option ColorInfo
  language_id : Option Int
  spacing : Option Int
deriving DecidableEq, Repr

/-- Observable state of a python-pptx run font. -/
structure PptFont where
  name : Option PyStr
  size : Option Int
  bold : Option Bool
  italic : Option Bool
  underline : Option Bool
  color : PptColor
  language_id : Option Int
  spacing : Option Int
deriving DecidableEq, Repr

/-- Embedding of the PowerPoint `FormattingManager.apply_run_formatting`
(src/formatting/manager.py lines 170-201), written as one record update:
the source is a sequence of guarded assignments to pairwise-distinct
attributes, each guard shown on its field.  Note that
`font.bold = formatting.bold` (and italic, underline) is unconditional —
there is no `is not None` guard on the tri-state booleans. -/
def apply_run_formatting_ppt (font : PptFont) (f : TextRunFormatting) : PptFont :=
  { font with
    name := if truthyStr f.font_name then f.font_name else font.name
    size := if truthyInt f.font_size then f.font_size else font.size
    bold := f.bold
    italic := f.italic
    underline := f.underline
    color := match f.color_format with
      | some info => apply_color_format font.color info
      | none => font.color
    language_id := if f.language_id.isSome then f.language_id else font.language_id
    spacing := if f.spacing.isSome then f.spacing else font.spacing }

/-- The `color` dict stored by `WordFormattingManager._get_color_info`;
`None` stands for the empty (falsy) dict. -/
structure WordColorInfo where
  rgb : Option PyStr
  themeColor : Option Int
deriving DecidableEq, Repr

/-- Observable state of a python-docx run font (underline and highlight are
enums, modelled as opaque integers). -/
structure WordFont where
  name : Option PyStr
  size : Option ℚ
  bold : Option Bool
  italic : Option Bool
  underline : Option Int
  colorRgb : Option PyStr
  colorTheme : Option Int
  highlight : Option Int
  style : Option PyStr
  allCaps : Option Bool
  smallCaps : Option Bool
  strike : Option Bool
  doubleStrike : Option Bool
  superscript : Option Bool
  subscript : Option Bool
  hidden : Option Bool
deriving DecidableEq, Repr

/-- The Word per-run formatting record `WordRunFormatting`
(src/word_formatting/manager.py lines 12-39), run-level fields (the
paragraph-level fields are applied by `apply_paragraph_formatting`, not by
`apply_run_formatting`). -/
structure WordRunFormatting where
  font_name : Option PyStr
  font_size : Option ℚ
  bold : Option Bool
  italic : Option Bool
  underline : Option Int
  color : Option WordColorInfo
  highlight_color : Option Int
  style : Option PyStr
  all_caps : Option Bool
  small_caps : Option Bool
  strike : Option Bool
  double_strike : Option Bool
  superscript : Option Bool
  subscript : Option Bool
  hidden : Option Bool
deriving DecidableEq, Repr

/-- Embedding of the Word `WordFormattingManager.apply_run_formatting`
(src/word_formatting/manager.py lines 180-230), written as one record
update: the source is a sequence of guarded assignments to
pairwise-distinct attributes, each guard shown on its field.  All tri-state
booleans are guarded by `is not None`; `_apply_color_info` sets the rgb if
present, otherwise the theme color. -/
def apply_run_formatting_word (font : WordFont) (f : WordRunFormatting) : WordFont :=
  { font with
    name := if truthyStr f.font_name then f.font_name else font.name
    size := if truthyRat f.font_size then f.font_size else font.size
    bold := if f.bold.isSome then f.bold else font.bold
    italic := if f.italic.isSome then f.italic else font.italic
    underline := if f.underline.isSome then f.underline else font.underline
    allCaps := if f.all_caps.isSome then f.all_caps else font.allCaps
    smallCaps := if f.small_caps.isSome then f.small_caps else font.smallCaps
    strike := if f.strike.isSome then f.strike else font.strike
    doubleStrike := if f.double_strike.isSome then f.double_strike else font.doubleStrike
    superscript := if f.superscript.isSome then f.superscript else font.superscript
    subscript := if f.subscript.isSome then f.subscript else font.subscript
    hidden := if f.hidden.isSome then f.hidden else font.hidden
    colorRgb := match f.color with
      | some info => if info.rgb.isSome then info.rgb else font.colorRgb
      | none => font.colorRgb
    colorTheme := match f.color with
      | some info =>
        if info.rgb.isSome then font.colorTheme
        else if info.themeColor.isSome then info.themeColor else font.colorTheme
      | none => font.colorTheme
    highlight := if f.highlight_color.isSome then f.highlight_color else font.highlight
    style := if truthyStr f.style then f.style else font.style }

/-- Concrete run font with all three tri-state booleans explicitly set. -/
def c7PptFont : PptFont :=
  ⟨none, none, some true, some true, some true, ⟨none, none, none⟩, none, none⟩

/-- Concrete formatting record with every field absent (as collected from a
run with inherited boldness). -/
def c7PptRecord : TextRunFormatting :=
  ⟨none, none, none, none, none, none, none, none⟩

/-- Counterexample for claim C7 as stated: the PowerPoint manager's
`apply_run_formatting` assigns `font.bold = formatting.bold`
unconditionally, so a record with `bold = None` overwrites a run that was
explicitly bold, resetting it to inherit — `None` does not mean
"do not touch" there. -/
theorem apply_run_formatting_ppt_none_overwrites :
    c7PptFont.bold = some true ∧
    (apply_run_formatting_ppt c7PptFont c7PptRecord).bold = none ∧
    (apply_run_formatting_ppt c7PptFont c7PptRecord).bold ≠ c7PptFont.bold := by
  refine ⟨rfl, rfl, by decide⟩

/-- Claim C7 (amended): in the Word manager a `None` tri-state boolean in
the record leaves the corresponding attribute of the run untouched; in the
PowerPoint manager the three tri-state booleans are copied from the record
unconditionally, so a `None` record value overwrites the run's setting. -/
theorem apply_run_formatting_tristate_spec (wf : WordFont) (wr : WordRunFormatting)
    (pf : PptFont) (pr : TextRunFormatting) :
    (wr.bold = none → (apply_run_formatting_word wf wr).bold = wf.bold) ∧
    (wr.italic = none → (apply_run_formatting_word wf wr).italic = wf.italic) ∧
    (wr.underline = none → (apply_run_formatting_word wf wr).underline = wf.underline) ∧
    (apply_run_formatting_ppt pf pr).bold = pr.bold ∧
    (apply_run_formatting_ppt pf pr).italic = pr.italic ∧
    (apply_run_formatting_ppt pf pr).underline = pr.underline := by
  refine ⟨?_, ?_, ?_, rfl, rfl, rfl⟩
  · intro h
    simp [apply_run_formatting_word, h]
  · intro h
    simp [apply_run_formatting_word, h]
  · intro h
    simp [apply_run_formatting_word, h]

/-- Witness for the amended claim C7: a Word record with absent tri-states
leaves an explicitly-formatted run untouched, while the PowerPoint manager
resets the same run. -/
theorem apply_run_formatting_tristate_spec_witness :
    (apply_run_formatting_word
      ⟨none, none, some true, some false, some 1, none, none, none, none, none,
        none, none, none, none, none, none⟩
      ⟨none, none, none, none, none, none, none, none, none, none, none, none,
        none, none, none⟩).bold = some true ∧
    (apply_run_formatting_ppt c7PptFont c7PptRecord).bold = none := by
  constructor
  · exact (apply_run_formatting_tristate_spec
      ⟨none, none, some true, some false, some 1, none, none, none, none, none,
        none, none, none, none, none, none⟩
      ⟨none, none, none, none, none, none, none, none, none, none, none, none,
        none, none, none⟩ c7PptFont c7PptRecord).1 rfl
  · exact (apply_run_formatting_tristate_spec
      ⟨none, none, some true, some false, some 1, none, none, none, none, none,
        none, none, none, none, none, none⟩
      ⟨none, none, none, none, none, none, none, none, none, none, none, none,
        none, none, none⟩ c7PptFont c7PptRecord).2.2.2.1

end PPTX
